import Mathlib

/-!
Shallow embedding of the PdfNarrator chapter-detection core (src/main.py).

Strings are modelled as `List Char` (the Python source only manipulates
text ASCII-wise).  Page numbers are modelled as `Int`, matching Python's
unbounded integers (intermediate values such as `page1 - 1` or the
`-9999` sentinels can be negative).  A document is modelled by its page
count, a page-text function and its embedded outline (table of contents),
which is exactly the interface `main.py` consumes from PyMuPDF.
-/

namespace PdfNarrator

/-- Python whitespace class for ASCII text: the characters matched by
regex class backslash-s and stripped by `str.strip()`. -/
def isPySpace (c : Char) : Bool :=
  c = ' ' || c = '\t' || c = '\n' || c = '\r' || c = '\u000b' || c = '\u000c'

/-- Word character for regex word boundaries: letters, digits, underscore. -/
def isWordChar (c : Char) : Bool :=
  c.isAlpha || c.isDigit || c = '_'

/-- Characters of the roman-numeral class `[ivxlcdm]`, case-insensitive. -/
def isRomanChar (c : Char) : Bool :=
  let l := c.toLower
  l = 'i' || l = 'v' || l = 'x' || l = 'l' || l = 'c' || l = 'd' || l = 'm'

/-- Separator characters of the title-stripping regex: dash, colon,
en-dash, em-dash. -/
def isSepChar (c : Char) : Bool :=
  c = '-' || c = ':' || c = '–' || c = '—'

/-- Python `str.strip()`: remove leading and trailing whitespace. -/
def pyStrip (cs : List Char) : List Char :=
  ((cs.dropWhile isPySpace).reverse.dropWhile isPySpace).reverse

/-- Collapse every maximal whitespace run to one space; the flag records
whether the previous character was whitespace (already emitted). -/
def collapseAux : Bool → List Char → List Char
  | _, [] => []
  | prevWS, c :: rest =>
    if isPySpace c then
      if prevWS then collapseAux true rest else ' ' :: collapseAux true rest
    else c :: collapseAux false rest

/-- Embedding of `normalize_whitespace` (main.py:32): substitute each
whitespace run by a single space, then strip. -/
def normalize_whitespace (cs : List Char) : List Char :=
  pyStrip (collapseAux false cs)

/-- Worker for Python `str.splitlines` on ASCII text: split at line
boundaries, treating a carriage-return/line-feed pair as one boundary.
A trailing boundary does not create an extra empty line. -/
def splitLinesAux : List Char → List Char → List (List Char)
  | acc, [] => if acc = [] then [] else [acc]
  | acc, '\r' :: '\n' :: rest => acc :: splitLinesAux [] rest
  | acc, c :: rest =>
    if c = '\n' || c = '\r' || c = '\u000b' || c = '\u000c' ||
       c = '\u001c' || c = '\u001d' || c = '\u001e' || c = '\u0085' ||
       c = ' ' || c = ' ' then
      acc :: splitLinesAux [] rest
    else splitLinesAux (acc ++ [c]) rest

/-- Python `text.splitlines()`. A completely empty text has no lines. -/
def splitLinesPy (cs : List Char) : List (List Char) :=
  splitLinesAux [] cs

/-- Case-insensitive literal match at the front of the input; returns the
remaining input on success. -/
def startsWithCI : List Char → List Char → Option (List Char)
  | [], cs => some cs
  | _ :: _, [] => none
  | p :: ps, c :: cs => if c.toLower = p.toLower then startsWithCI ps cs else none

/-- Word boundary immediately after a word-character run: holds at end of
input or when the next character is not a word character. -/
def boundaryAfterWord : List Char → Bool
  | [] => true
  | c :: _ => !isWordChar c

/-- The capture group of the chapter identifier, pattern fragment
`([0-9]+|[ivxlcdm]+)` followed by a word boundary.  The regex engine
first tries the full digit run, then the full roman run; shorter runs can
never satisfy the boundary, so this deterministic compilation is faithful
to the backtracking search. -/
def matchLabelGroup (cs : List Char) : Option (List Char × List Char) :=
  match cs with
  | [] => none
  | c :: _ =>
    if c.isDigit then
      let run := cs.takeWhile Char.isDigit
      let rest := cs.dropWhile Char.isDigit
      if boundaryAfterWord rest then some (run, rest) else none
    else if isRomanChar c then
      let run := cs.takeWhile isRomanChar
      let rest := cs.dropWhile isRomanChar
      if boundaryAfterWord rest then some (run, rest) else none
    else none

/-- The letter capture group of the word-numeral pattern, fragment
`([a-z]+)` (case-insensitive) followed by a word boundary. -/
def matchWordGroup (cs : List Char) : Option (List Char × List Char) :=
  match cs with
  | [] => none
  | c :: _ =>
    if c.isAlpha then
      let run := cs.takeWhile Char.isAlpha
      let rest := cs.dropWhile Char.isAlpha
      if boundaryAfterWord rest then some (run, rest) else none
    else none

/-- Shared tail of every chapter pattern: optional whitespace, then the
rest of the line as the title group `(.*)`. -/
def finishHeading (label rest : List Char) : Option (List Char × List Char) :=
  some (label, rest.dropWhile isPySpace)

/-- CHAPTER_PATTERNS entry 1 (main.py:15), a compilation of
`^\s*(chapter)\s+([0-9]+|[ivxlcdm]+)\b\s*(.*)$` with IGNORECASE:
returns the raw identifier and title captures. -/
def matchChapterNum (cs : List Char) : Option (List Char × List Char) :=
  let cs := cs.dropWhile isPySpace
  match startsWithCI "chapter".data cs with
  | none => none
  | some rest =>
    match rest with
    | [] => none
    | c :: _ =>
      if isPySpace c then
        match matchLabelGroup (rest.dropWhile isPySpace) with
        | none => none
        | some (label, after) => finishHeading label after
      else none

/-- CHAPTER_PATTERNS entry 2 (main.py:16), a compilation of
`^\s*(chapter)\s+([a-z]+)\b\s*(.*)$` with IGNORECASE. -/
def matchChapterWord (cs : List Char) : Option (List Char × List Char) :=
  let cs := cs.dropWhile isPySpace
  match startsWithCI "chapter".data cs with
  | none => none
  | some rest =>
    match rest with
    | [] => none
    | c :: _ =>
      if isPySpace c then
        match matchWordGroup (rest.dropWhile isPySpace) with
        | none => none
        | some (label, after) => finishHeading label after
      else none

/-- Continuation of the abbreviated pattern after its keyword variant:
fragment `\s*[-:]?\s*([0-9]+|[ivxlcdm]+)\b\s*(.*)$`.  The whitespace,
separator and identifier classes are pairwise disjoint, so the greedy
regex semantics is deterministic here. -/
def matchAbbrevTail (rest : List Char) : Option (List Char × List Char) :=
  let r1 := rest.dropWhile isPySpace
  let r2 := match r1 with
    | c :: t => if c = '-' || c = ':' then t else r1
    | [] => r1
  match matchLabelGroup (r2.dropWhile isPySpace) with
  | none => none
  | some (label, after) => finishHeading label after

/-- CHAPTER_PATTERNS entry 3 (main.py:17), a compilation of
`^\s*(ch\.?|chap\.?)\s*[-:]?\s*([0-9]+|[ivxlcdm]+)\b\s*(.*)$` with
IGNORECASE.  The four keyword variants are tried in the order the
backtracking engine would: `ch.`, `ch`, `chap.`, `chap`. -/
def matchChAbbrev (cs : List Char) : Option (List Char × List Char) :=
  let cs := cs.dropWhile isPySpace
  let try1 := fun (lit : List Char) =>
    match startsWithCI lit cs with
    | none => none
    | some rest => matchAbbrevTail rest
  match try1 "ch.".data with
  | some r => some r
  | none =>
  match try1 "ch".data with
  | some r => some r
  | none =>
  match try1 "chap.".data with
  | some r => some r
  | none => try1 "chap".data

/-- Python `re.sub("^[-:–—]+\\s*", "", title)`: remove one leading run of
separator characters together with the following whitespace run. -/
def stripTitleSep (cs : List Char) : List Char :=
  match cs with
  | [] => []
  | c :: _ =>
    if isSepChar c then (cs.dropWhile isSepChar).dropWhile isPySpace
    else cs

/-- Post-processing applied to a successful pattern match
(main.py:100-103): normalize the label, normalize the title, strip a
leading separator, and strip again. -/
def headingResult (raw : List Char × List Char) : List Char × List Char :=
  (normalize_whitespace raw.1,
   pyStrip (stripTitleSep (normalize_whitespace raw.2)))

/-- Try the three chapter patterns, in order, on one stripped line; lines
longer than 140 characters are skipped (main.py:95-103). -/
def tryHeadingLine (ln : List Char) : Option (List Char × List Char) :=
  if 140 < ln.length then none
  else
    match matchChapterNum ln with
    | some r => some (headingResult r)
    | none =>
    match matchChapterWord ln with
    | some r => some (headingResult r)
    | none =>
    match matchChAbbrev ln with
    | some r => some (headingResult r)
    | none => none

/-- The stripped, non-empty lines of a page text (main.py:89). -/
def headingLines (text : List Char) : List (List Char) :=
  (splitLinesPy text).filterMap fun ln =>
    let s := pyStrip ln
    if s = [] then none else some s

/-- Embedding of `find_chapter_heading_on_page` (main.py:88-104): examine
the first 25 non-empty lines and return the first pattern match. -/
def find_chapter_heading_on_page (text : List Char) :
    Option (List Char × List Char) :=
  ((headingLines text).take 25).findSome? tryHeadingLine

/-- A document as consumed by the detectors: page count, page text per
index, and the embedded outline as `(level, title, one_based_page)`
entries, mirroring PyMuPDF `doc.get_toc()`. -/
structure Document where
  pageCount : Nat
  pageText : Nat → List Char
  toc : List (Int × List Char × Int)

/-- The page count as an integer, Python `len(doc)`. -/
def Document.N (doc : Document) : Int := (doc.pageCount : Int)

/-- One chapter record, embedding the `Chapter` dataclass (main.py:24). -/
structure Chapter where
  label : List Char
  title : List Char
  start_page : Int
  end_page : Int
deriving DecidableEq, Repr

/-- Test of the hint regex `\bchapter\b|\bch\.\b|\bchap\.\b` (IGNORECASE)
at one position; `prev` is the character just before that position.  Each
alternative needs a word boundary on both sides: before the keyword the
previous character must not be a word character, and after `ch.`/`chap.`
the dot is itself a non-word character, so the boundary there demands a
word character next. -/
def hintAt (prev : Option Char) (cs : List Char) : Bool :=
  (match prev with
   | none => true
   | some c => !isWordChar c) &&
  ((match startsWithCI "chapter".data cs with
    | some rest => boundaryAfterWord rest
    | none => false) ||
   (match startsWithCI "ch.".data cs with
    | some rest =>
      match rest with
      | c :: _ => isWordChar c
      | [] => false
    | none => false) ||
   (match startsWithCI "chap.".data cs with
    | some rest =>
      match rest with
      | c :: _ => isWordChar c
      | [] => false
    | none => false))

/-- Scan of all positions of the text for a hint match. -/
def hintSearch (prev : Option Char) : List Char → Bool
  | [] => hintAt prev []
  | c :: rest => hintAt prev (c :: rest) || hintSearch (some c) rest

/-- Embedding of `TOC_CHAPTER_HINT.search(title)` (main.py:21). -/
def TOC_CHAPTER_HINT (title : List Char) : Bool :=
  hintSearch none title

/-- Conversion of a one-based outline page to a zero-based start page,
clamped: `max(0, min(int(page1) - 1, len(doc) - 1))` (main.py:131). -/
def clampStart (N page1 : Int) : Int :=
  max 0 (min (page1 - 1) (N - 1))

/-- The start-page collection loop of `chapters_from_toc`
(main.py:126-135): skip entries whose page number is falsy (zero), clamp,
skip start pages already seen, and record `(start0, normalized title)`. -/
def collectStarts (N : Int) : List (Int × List Char × Int) → List Int →
    List (Int × List Char)
  | [], _ => []
  | e :: rest, seen =>
    if e.2.2 = 0 then collectStarts N rest seen
    else
      let start0 := clampStart N e.2.2
      if start0 ∈ seen then collectStarts N rest seen
      else (start0, normalize_whitespace e.2.1) :: collectStarts N rest (start0 :: seen)

/-- Sort key of `starts.sort(key=lambda x: x[0])` (main.py:137). -/
def keyLE (a b : Int × List Char) : Prop := a.1 ≤ b.1

instance : DecidableRel keyLE := fun a b => Int.decLe a.1 b.1

instance : IsTotal (Int × List Char) keyLE := ⟨fun a b => Int.le_total a.1 b.1⟩

instance : IsTrans (Int × List Char) keyLE := ⟨fun _ _ _ => Int.le_trans⟩

/-- The entry filter of `chapters_from_toc` (main.py:119-123): entries
whose title matches the chapter hint, else all entries of level 1. -/
def toc_entries (doc : Document) : List (Int × List Char × Int) :=
  let chapter_like := doc.toc.filter fun e => TOC_CHAPTER_HINT e.2.1
  if chapter_like = [] then doc.toc.filter fun e => e.1 == 1
  else chapter_like

/-- The deduplicated start pages of the surviving outline entries, in
encounter order (main.py:126-135). -/
def toc_starts (doc : Document) : List (Int × List Char) :=
  collectStarts doc.N (toc_entries doc) []

/-- The start pages sorted ascending by page (main.py:137).  The keys are
pairwise distinct, so any sort matching the key order produces the same
list as Python's stable sort. -/
def toc_starts_sorted (doc : Document) : List (Int × List Char) :=
  List.insertionSort keyLE (toc_starts doc)

/-- The chapter construction loop shared by both detectors (main.py:
141-145 and 177-180): each entry `(start, label, title)` becomes a
chapter ending just before the next start, the last one ending at
`len(doc) - 1`, with `end_page = max(start_page, end_page)`. -/
def buildChapters (N : Int) : List (Int × List Char × List Char) → List Chapter
  | [] => []
  | [(sp, lb, ti)] => [⟨lb, ti, sp, max sp (N - 1)⟩]
  | (sp, lb, ti) :: (sp2, lb2, ti2) :: rest =>
    ⟨lb, ti, sp, max sp (sp2 - 1)⟩ :: buildChapters N ((sp2, lb2, ti2) :: rest)

/-- The final collapse pass of `chapters_from_toc` (main.py:147-154):
keep a chapter only when its start page exceeds the previously kept start
page, starting from the sentinel `-9999`. -/
def tocCollapse : Int → List Chapter → List Chapter
  | _, [] => []
  | last, c :: rest =>
    if 1 ≤ c.start_page - last then c :: tocCollapse c.start_page rest
    else tocCollapse last rest

/-- The chapters built from the sorted start pages, before the collapse
pass; every chapter is labelled `"TOC"` (main.py:141-145). -/
def toc_raw_chapters (doc : Document) : List Chapter :=
  buildChapters doc.N ((toc_starts_sorted doc).map fun s => (s.1, "TOC".data, s.2))

/-- Embedding of `chapters_from_toc` (main.py:107-154). -/
def chapters_from_toc (doc : Document) : List Chapter :=
  if doc.toc = [] then []
  else if toc_starts_sorted doc = [] then []
  else tocCollapse (-9999) (toc_raw_chapters doc)

/-- The heading matches of the page scan (main.py:158-164):
`(page_index, label, title)` per page, in page order. -/
def scanHits (doc : Document) : List (Int × List Char × List Char) :=
  (List.range doc.pageCount).filterMap fun i =>
    (find_chapter_heading_on_page (doc.pageText i)).map fun r => ((i : Int), r.1, r.2)

/-- The running-header deduplication of `chapters_by_scanning`
(main.py:169-175): keep a hit only when its page is at least 2 beyond the
previously kept page, starting from the sentinel `-9999`. -/
def dedupHits : Int → List (Int × List Char × List Char) →
    List (Int × List Char × List Char)
  | _, [] => []
  | last, h :: rest =>
    if 2 ≤ h.1 - last then h :: dedupHits h.1 rest
    else dedupHits last rest

/-- Embedding of `chapters_by_scanning` (main.py:157-182). -/
def chapters_by_scanning (doc : Document) : List Chapter :=
  if scanHits doc = [] then []
  else buildChapters doc.N (dedupHits (-9999) (scanHits doc))

/-- Embedding of `detect_chapters` (main.py:185-193): outline first, page
scan only when the outline yields nothing. -/
def detect_chapters (doc : Document) : List Chapter :=
  if chapters_from_toc doc = [] then chapters_by_scanning doc
  else chapters_from_toc doc

/-- Specification-level deduplication, stated the way the spec words it:
the first match is always kept, and a later match is kept exactly when
its page is at least 2 pages after the previously kept one.  Written
independently of the `-9999` sentinel for comparison with `dedupHits`. -/
def keepFromSpec : Int → List (Int × List Char × List Char) →
    List (Int × List Char × List Char)
  | _, [] => []
  | last, h :: rest =>
    if last + 2 ≤ h.1 then h :: keepFromSpec h.1 rest
    else keepFromSpec last rest

/-- Specification-level deduplication entry point: keep the first match
unconditionally. -/
def scanKeepSpec : List (Int × List Char × List Char) →
    List (Int × List Char × List Char)
  | [] => []
  | h :: rest => h :: keepFromSpec h.1 rest

/-- Latest run of whitespace characters after the last newline of a pure
whitespace buffer. -/
def afterLastNewline (l : List Char) : List Char :=
  (l.reverse.takeWhile fun c => c ≠ '\n').reverse

/-- Worker for Python `re.split("\n\s*\n", text)`.  A match starts at a
newline and extends greedily through following whitespace up to a final
newline, so the match consumes the first newline plus the whitespace run
through its last newline; whitespace after that last newline belongs to
the next segment.  State: `cur` is the segment built so far, `buf = some b`
means the scanner is inside a whitespace run that began with a newline,
with `b` the run consumed so far. -/
def splitParaAux : List Char → Option (List Char) → List Char → List (List Char)
  | cur, none, [] => [cur]
  | cur, some buf, [] =>
    if '\n' ∈ buf.drop 1 then cur :: [afterLastNewline (buf.drop 1)]
    else [cur ++ buf]
  | cur, none, c :: rest =>
    if c = '\n' then splitParaAux cur (some ['\n']) rest
    else splitParaAux (cur ++ [c]) none rest
  | cur, some buf, c :: rest =>
    if isPySpace c then splitParaAux cur (some (buf ++ [c])) rest
    else if '\n' ∈ buf.drop 1 then
      cur :: splitParaAux (afterLastNewline (buf.drop 1) ++ [c]) none rest
    else splitParaAux (cur ++ buf ++ [c]) none rest

/-- Python `re.split("\n\s*\n", text)`: split the text at blank-line
boundaries. -/
def splitParagraphs (text : List Char) : List (List Char) :=
  splitParaAux [] none text

/-- The paragraph list of `chunk_text_for_speaking` (main.py:197): split
at blank lines, strip, and keep the non-empty pieces. -/
def paragraphsOf (text : List Char) : List (List Char) :=
  (splitParagraphs text).filterMap fun p =>
    let s := pyStrip p
    if s = [] then none else some s

/-- Worker for Python `re.split("(?<=[.!?])\s+", p)`: a split point is a
whitespace run whose preceding character is `.`, `!` or `?`.  State:
`inWS` records that the scanner is consuming such a run, `prev` is the
previous character, `cur` the segment built so far. -/
def sentenceAux : Bool → Option Char → List Char → List Char → List (List Char)
  | _, _, cur, [] => [cur]
  | false, prev, cur, c :: rest =>
    if isPySpace c && (prev = some '.' || prev = some '!' || prev = some '?') then
      cur :: sentenceAux true none [] rest
    else sentenceAux false (some c) (cur ++ [c]) rest
  | true, _, cur, c :: rest =>
    if isPySpace c then sentenceAux true none cur rest
    else sentenceAux false (some c) (cur ++ [c]) rest

/-- Python `re.split("(?<=[.!?])\s+", p)`: split after sentence-ending
punctuation. -/
def sentenceSplitPy (p : List Char) : List (List Char) :=
  sentenceAux false none [] p

/-- One iteration of the sentence-packing loop of
`chunk_text_for_speaking` (main.py:206-215); the state is the chunk list
built so far plus the running buffer. -/
def packStep (max_chars : Nat) (acc : List (List Char) × List Char)
    (part : List Char) : List (List Char) × List Char :=
  if pyStrip part = [] then acc
  else if acc.2.length + (pyStrip part).length + 1 ≤ max_chars then
    (acc.1, pyStrip (acc.2 ++ ' ' :: pyStrip part))
  else if acc.2 = [] then (acc.1, pyStrip part)
  else (acc.1 ++ [acc.2], pyStrip part)

/-- The oversized-paragraph branch of `chunk_text_for_speaking`
(main.py:204-217): greedily pack sentence parts into chunks, flushing
the final buffer. -/
def packParts (max_chars : Nat) (parts : List (List Char)) : List (List Char) :=
  let r := parts.foldl (packStep max_chars) ([], [])
  if r.2 = [] then r.1 else r.1 ++ [r.2]

/-- The chunks contributed by one paragraph (main.py:200-217): the
normalized paragraph itself when it fits, otherwise its packed sentence
parts. -/
def chunkPara (max_chars : Nat) (p : List Char) : List (List Char) :=
  if (normalize_whitespace p).length ≤ max_chars then [normalize_whitespace p]
  else packParts max_chars (sentenceSplitPy (normalize_whitespace p))

/-- Embedding of `chunk_text_for_speaking` (main.py:196-218). -/
def chunk_text_for_speaking (text : List Char) (max_chars : Nat := 900) :
    List (List Char) :=
  (paragraphsOf text).foldl (fun chunks p => chunks ++ chunkPara max_chars p) []

/-- Python `str.isdigit()` for ASCII text: non-empty and all digits. -/
def pyIsDigit (cs : List Char) : Bool :=
  !cs.isEmpty && cs.all Char.isDigit

/-- Numeric value of a decimal digit string, Python `int(val)`. -/
def digitsToNat (cs : List Char) : Nat :=
  cs.foldl (fun a c => a * 10 + (c.toNat - '0'.toNat)) 0

/-- Messages the narration loop can print in reaction to a command. -/
inductive NarMsg where
  | outOfRange
  | invalidNumber
  | unknownCommand
deriving DecidableEq, Repr

/-- Result of one iteration of the narration loop: the page the loop
variable holds next (`none` after the `q` command, which leaves the
loop), plus the reported message if any. -/
structure NarStep where
  page : Option Int
  msg : Option NarMsg
deriving DecidableEq, Repr

/-- Embedding of the command handling of one `narrate_pages` iteration
(main.py:246-269) at current page `p` of the range
`[start_page, end_page]`.  `cmdRaw` is the raw command line, `gRaw` the
raw answer to the go-to-page prompt (read only when the stripped,
lowercased command is `g`). -/
def narrate_step (start_page end_page p : Int) (cmdRaw gRaw : List Char) : NarStep :=
  let cmd := (pyStrip cmdRaw).map Char.toLower
  if cmd = [] then ⟨some (p + 1), none⟩
  else if cmd = ['b'] then ⟨some (max start_page (p - 1)), none⟩
  else if cmd = ['r'] then ⟨some p, none⟩
  else if cmd = ['g'] then
    let val := pyStrip gRaw
    if pyIsDigit val then
      let target : Int := (digitsToNat val : Int) - 1
      if start_page ≤ target ∧ target ≤ end_page then ⟨some target, none⟩
      else ⟨some p, some .outOfRange⟩
    else ⟨some p, some .invalidNumber⟩
  else if cmd = ['q'] then ⟨none, none⟩
  else ⟨some (p + 1), some .unknownCommand⟩

/-- The chapter-list invariants asserted by the spec for a document of
`N` pages: strictly ascending start pages, pairwise disjoint page
ranges, gap-free adjacency, non-empty ranges, final chapter ending at
the last page, and the union of the ranges covering exactly the interval
from the first detected start to the last page. -/
def chapterInvariants (N : Int) (cs : List Chapter) : Prop :=
  List.Chain' (fun a b => a.start_page < b.start_page) cs ∧
  List.Pairwise (fun a b => a.end_page < b.start_page) cs ∧
  List.Chain' (fun a b => a.end_page + 1 = b.start_page) cs ∧
  (∀ c ∈ cs, c.start_page ≤ c.end_page) ∧
  (∀ c, cs.getLast? = some c → c.end_page = N - 1) ∧
  (∀ c0, cs.head? = some c0 → ∀ p : Int,
    (∃ c ∈ cs, c.start_page ≤ p ∧ p ≤ c.end_page) ↔ c0.start_page ≤ p ∧ p ≤ N - 1)

/-- Example document of the spec: 20 pages, outline entries
`(1, "Chapter One", 1)` and `(1, "Chapter Two", 10)`, no page text. -/
def doc20 : Document :=
  ⟨20, fun _ => [], [(1, "Chapter One".data, 1), (1, "Chapter Two".data, 10)]⟩

/-- Document with 5 pages whose only outline entry is chapter-hinted but
carries the one-based page number 0. -/
def docPageZero : Document :=
  ⟨5, fun _ => [], [(1, "Chapter X".data, 0)]⟩

/-- Document with 7 pages, no outline, and a chapter heading printed on
pages 0 and 1 only. -/
def docScanW : Document :=
  ⟨7, fun i => if i ≤ 1 then "CHAPTER 1".data else [], []⟩

/-! Utility lemmas about stripping. -/

theorem dropWhile_length_le (p : Char → Bool) :
    ∀ l : List Char, (l.dropWhile p).length ≤ l.length := by
  intro l
  induction l with
  | nil => simp
  | cons c t ih =>
    by_cases h : p c
    · rw [List.dropWhile_cons, if_pos h]
      exact ih.trans (Nat.le_succ _)
    · rw [List.dropWhile_cons, if_neg h]

theorem dropWhile_dropWhile (p : Char → Bool) :
    ∀ l : List Char, (l.dropWhile p).dropWhile p = l.dropWhile p := by
  intro l
  induction l with
  | nil => simp
  | cons c t ih =>
    by_cases h : p c
    · rw [List.dropWhile_cons, if_pos h, ih]
    · rw [List.dropWhile_cons, if_neg h, List.dropWhile_cons, if_neg h]

theorem dropWhile_head_not (p : Char → Bool) :
    ∀ (l : List Char) c t, l.dropWhile p = c :: t → p c = false := by
  intro l
  induction l with
  | nil => intro c t h; simp at h
  | cons a l' ih =>
    intro c t h
    by_cases ha : p a
    · rw [List.dropWhile_cons, if_pos ha] at h
      exact ih c t h
    · rw [List.dropWhile_cons, if_neg ha] at h
      cases h
      exact Bool.eq_false_iff.mpr ha

theorem dropWhile_isSuffix (p : Char → Bool) :
    ∀ l : List Char, l.dropWhile p <:+ l := by
  intro l
  induction l with
  | nil => simp
  | cons c t ih =>
    by_cases h : p c
    · rw [List.dropWhile_cons, if_pos h]
      exact ih.trans (List.suffix_cons c t)
    · rw [List.dropWhile_cons, if_neg h]

theorem pyStrip_length_le (l : List Char) : (pyStrip l).length ≤ l.length := by
  unfold pyStrip
  calc ((l.dropWhile isPySpace).reverse.dropWhile isPySpace).reverse.length
      = ((l.dropWhile isPySpace).reverse.dropWhile isPySpace).length := List.length_reverse _
    _ ≤ (l.dropWhile isPySpace).reverse.length := dropWhile_length_le _ _
    _ = (l.dropWhile isPySpace).length := List.length_reverse _
    _ ≤ l.length := dropWhile_length_le _ _

theorem pyStrip_idem (l : List Char) : pyStrip (pyStrip l) = pyStrip l := by
  unfold pyStrip
  set a := l.dropWhile isPySpace with ha
  set b := a.reverse.dropWhile isPySpace with hb
  have hstep : b.reverse.dropWhile isPySpace = b.reverse := by
    cases hs : b.reverse with
    | nil => simp
    | cons c t =>
      have hsuf : b <:+ a.reverse := by
        rw [hb]; exact dropWhile_isSuffix _ _
      have hpre : b.reverse <+: a := by
        have h1 := List.reverse_prefix.mpr hsuf
        rwa [List.reverse_reverse] at h1
      obtain ⟨r, hr⟩ := hpre
      have hahead : List.dropWhile isPySpace l = c :: (t ++ r) := by
        rw [← ha, ← hr, hs]; rfl
      have hc : isPySpace c = false := dropWhile_head_not isPySpace l c (t ++ r) hahead
      rw [List.dropWhile_cons, if_neg (by simp [hc])]
  rw [hstep, List.reverse_reverse, hb, dropWhile_dropWhile]

theorem pyStrip_normalize (l : List Char) :
    pyStrip (normalize_whitespace l) = normalize_whitespace l := by
  unfold normalize_whitespace
  exact pyStrip_idem _

/-! Lemmas about the shared chapter-building loop. -/

theorem buildChapters_map_start (N : Int) :
    ∀ l, (buildChapters N l).map Chapter.start_page = l.map (·.1) := by
  intro l
  induction l with
  | nil => rfl
  | cons x xs ih =>
    obtain ⟨sp, lb, ti⟩ := x
    cases xs with
    | nil => rfl
    | cons y ys =>
      obtain ⟨sp2, lb2, ti2⟩ := y
      simpa [buildChapters] using ih

theorem buildChapters_start_le_end (N : Int) :
    ∀ l, ∀ c ∈ buildChapters N l, c.start_page ≤ c.end_page := by
  intro l
  induction l with
  | nil => simp [buildChapters]
  | cons x xs ih =>
    obtain ⟨sp, lb, ti⟩ := x
    cases xs with
    | nil =>
      intro c hc
      simp [buildChapters] at hc
      subst hc
      exact le_max_left _ _
    | cons y ys =>
      obtain ⟨sp2, lb2, ti2⟩ := y
      intro c hc
      rw [buildChapters, List.mem_cons] at hc
      rcases hc with rfl | hc
      · exact le_max_left _ _
      · exact ih c hc

theorem buildChapters_mem_entry (N : Int) :
    ∀ l, ∀ c ∈ buildChapters N l, ∃ x ∈ l, c.label = x.2.1 ∧ c.start_page = x.1 := by
  intro l
  induction l with
  | nil => simp [buildChapters]
  | cons x xs ih =>
    obtain ⟨sp, lb, ti⟩ := x
    cases xs with
    | nil =>
      intro c hc
      simp [buildChapters] at hc
      subst hc
      exact ⟨(sp, lb, ti), List.mem_cons_self _ _, rfl, rfl⟩
    | cons y ys =>
      obtain ⟨sp2, lb2, ti2⟩ := y
      intro c hc
      rw [buildChapters, List.mem_cons] at hc
      rcases hc with rfl | hc
      · exact ⟨(sp, lb, ti), List.mem_cons_self _ _, rfl, rfl⟩
      · obtain ⟨x, hx, hlab⟩ := ih c hc
        exact ⟨x, List.mem_cons_of_mem _ hx, hlab⟩

theorem buildChapters_chain_start (N : Int) (l : List (Int × List Char × List Char))
    (h : List.Chain' (fun a b => a.1 < b.1) l) :
    List.Chain' (fun a b : Chapter => a.start_page < b.start_page) (buildChapters N l) := by
  have hmap : List.Chain' (fun a b : Int => a < b)
      ((buildChapters N l).map Chapter.start_page) := by
    rw [buildChapters_map_start]
    exact (List.chain'_map _).mpr h
  exact (List.chain'_map _).mp hmap

theorem buildChapters_chain_adj (N : Int) :
    ∀ l, List.Chain' (fun a b => a.1 < b.1) l →
      List.Chain' (fun a b : Chapter => a.end_page + 1 = b.start_page) (buildChapters N l) := by
  intro l
  induction l with
  | nil => simp [buildChapters]
  | cons x xs ih =>
    obtain ⟨sp, lb, ti⟩ := x
    cases xs with
    | nil => intro _; simp [buildChapters]
    | cons y ys =>
      obtain ⟨sp2, lb2, ti2⟩ := y
      intro h
      rw [List.chain'_cons] at h
      have htail := ih h.2
      have hlt : sp < sp2 := h.1
      rw [buildChapters, List.chain'_cons']
      refine ⟨?_, htail⟩
      intro c2 hc2
      have hhead : (buildChapters N ((sp2, lb2, ti2) :: ys)).head? = some c2 := hc2
      have hstart : c2.start_page = sp2 := by
        cases ys with
        | nil =>
          rw [buildChapters] at hhead
          cases hhead
          rfl
        | cons z zs =>
          obtain ⟨sp3, lb3, ti3⟩ := z
          rw [buildChapters] at hhead
          cases hhead
          rfl
      show (Chapter.mk lb ti sp (max sp (sp2 - 1))).end_page + 1 = c2.start_page
      simp only [hstart]
      show max sp (sp2 - 1) + 1 = sp2
      omega

theorem buildChapters_last_end (N : Int) :
    ∀ l, (∀ x ∈ l, x.1 ≤ N - 1) →
      ∀ c, (buildChapters N l).getLast? = some c → c.end_page = N - 1 := by
  intro l
  induction l with
  | nil => simp [buildChapters]
  | cons x xs ih =>
    obtain ⟨sp, lb, ti⟩ := x
    cases xs with
    | nil =>
      intro hle c hc
      rw [buildChapters] at hc
      cases hc
      have hsp : sp ≤ N - 1 := hle (sp, lb, ti) (List.mem_cons_self _ _)
      show max sp (N - 1) = N - 1
      omega
    | cons y ys =>
      obtain ⟨sp2, lb2, ti2⟩ := y
      intro hle c hc
      rw [buildChapters] at hc
      have htail : (buildChapters N ((sp2, lb2, ti2) :: ys)).getLast? = some c := by
        cases ys with
        | nil =>
          rw [buildChapters] at hc ⊢
          rwa [List.getLast?_cons_cons] at hc
        | cons z zs =>
          obtain ⟨sp3, lb3, ti3⟩ := z
          rw [buildChapters] at hc ⊢
          rwa [List.getLast?_cons_cons] at hc
      exact ih (fun e he => hle e (List.mem_cons_of_mem _ he)) c htail

theorem buildChapters_cover (N : Int) :
    ∀ l, List.Chain' (fun a b => a.1 < b.1) l → (∀ x ∈ l, x.1 ≤ N - 1) →
      ∀ x0, l.head? = some x0 → ∀ p : Int,
        (∃ c ∈ buildChapters N l, c.start_page ≤ p ∧ p ≤ c.end_page) ↔
          x0.1 ≤ p ∧ p ≤ N - 1 := by
  intro l
  induction l with
  | nil => intro _ _ x0 h; simp at h
  | cons x xs ih =>
    obtain ⟨sp, lb, ti⟩ := x
    cases xs with
    | nil =>
      intro _ hle x0 hx0 p
      cases hx0
      have hsp : sp ≤ N - 1 := hle (sp, lb, ti) (List.mem_cons_self _ _)
      simp only [buildChapters, List.mem_singleton]
      constructor
      · rintro ⟨c, rfl, h1, h2⟩
        refine ⟨h1, ?_⟩
        have : max sp (N - 1) = N - 1 := by omega
        rw [this] at h2
        exact h2
      · intro hp
        exact ⟨_, rfl, hp.1, by show p ≤ max sp (N - 1); omega⟩
    | cons y ys =>
      obtain ⟨sp2, lb2, ti2⟩ := y
      intro hch hle x0 hx0 p
      cases hx0
      rw [List.chain'_cons] at hch
      have hlt : sp < sp2 := hch.1
      have hsp2 : sp2 ≤ N - 1 :=
        hle (sp2, lb2, ti2) (List.mem_cons_of_mem _ (List.mem_cons_self _ _))
      have htail := ih hch.2 (fun e he => hle e (List.mem_cons_of_mem _ he))
        (sp2, lb2, ti2) rfl p
      rw [buildChapters]
      constructor
      · rintro ⟨c, hc, h1, h2⟩
        rw [List.mem_cons] at hc
        rcases hc with rfl | hc
        · refine ⟨h1, ?_⟩
          show p ≤ N - 1
          have : p ≤ max sp (sp2 - 1) := h2
          omega
        · have := htail.mp ⟨c, hc, h1, h2⟩
          constructor
          · omega
          · exact this.2
      · rintro ⟨hp1, hp2⟩
        by_cases hcase : p ≤ sp2 - 1
        · exact ⟨_, List.mem_cons_self _ _, hp1, by show p ≤ max sp (sp2 - 1); omega⟩
        · obtain ⟨c, hc, h1, h2⟩ := htail.mpr ⟨by omega, hp2⟩
          exact ⟨c, List.mem_cons_of_mem _ hc, h1, h2⟩

theorem chapters_pairwise_disjoint :
    ∀ cs : List Chapter,
      List.Chain' (fun a b => a.end_page + 1 = b.start_page) cs →
      (∀ c ∈ cs, c.start_page ≤ c.end_page) →
      List.Pairwise (fun a b => a.end_page < b.start_page) cs := by
  intro cs
  induction cs with
  | nil => simp
  | cons a t ih =>
    intro hch hse
    have hcht : List.Chain' (fun a b => a.end_page + 1 = b.start_page) t := hch.tail
    have hpt := ih hcht (fun c hc => hse c (List.mem_cons_of_mem _ hc))
    refine List.Pairwise.cons ?_ hpt
    intro b hb
    cases t with
    | nil => simp at hb
    | cons a2 t2 =>
      rw [List.chain'_cons] at hch
      have hadj : a.end_page + 1 = a2.start_page := hch.1
      rw [List.mem_cons] at hb
      rcases hb with rfl | hb
      · omega
      · have h2 : a2.end_page < b.start_page := (List.pairwise_cons.mp hpt).1 b hb
        have h3 : a2.start_page ≤ a2.end_page :=
          hse a2 (List.mem_cons_of_mem _ (List.mem_cons_self _ _))
        omega

theorem buildChapters_invariants (N : Int) (l : List (Int × List Char × List Char))
    (hch : List.Chain' (fun a b => a.1 < b.1) l) (hle : ∀ x ∈ l, x.1 ≤ N - 1) :
    chapterInvariants N (buildChapters N l) := by
  have hadj := buildChapters_chain_adj N l hch
  have hse := buildChapters_start_le_end N l
  refine ⟨buildChapters_chain_start N l hch, chapters_pairwise_disjoint _ hadj hse,
    hadj, hse, buildChapters_last_end N l hle, ?_⟩
  intro c0 hc0 p
  have hmap : ((buildChapters N l).map Chapter.start_page).head? =
      (l.map (·.1)).head? := by rw [buildChapters_map_start]
  rw [List.head?_map, List.head?_map, hc0] at hmap
  cases hx0 : l.head? with
  | none => rw [hx0] at hmap; simp at hmap
  | some x0 =>
    rw [hx0] at hmap
    simp only [Option.map_some'] at hmap
    have hstart : c0.start_page = x0.1 := by
      injection hmap with h
    rw [hstart]
    exact buildChapters_cover N l hch hle x0 hx0 p

/-! Lemmas about the outline detector pipeline. -/

theorem collectStarts_bounds (N : Int) :
    ∀ entries seen, ∀ x ∈ collectStarts N entries seen,
      0 ≤ x.1 ∧ x.1 ≤ max 0 (N - 1) := by
  intro entries
  induction entries with
  | nil => intro seen x hx; simp [collectStarts] at hx
  | cons e rest ih =>
    intro seen x hx
    rw [collectStarts] at hx
    by_cases h0 : e.2.2 = 0
    · rw [if_pos h0] at hx
      exact ih seen x hx
    · rw [if_neg h0] at hx
      by_cases hseen : clampStart N e.2.2 ∈ seen
      · rw [if_pos hseen] at hx
        exact ih seen x hx
      · rw [if_neg hseen, List.mem_cons] at hx
        rcases hx with rfl | hx
        · constructor
          · exact le_max_left _ _
          · show clampStart N e.2.2 ≤ max 0 (N - 1)
            unfold clampStart
            omega
        · exact ih _ x hx

theorem collectStarts_notmem_seen (N : Int) :
    ∀ entries seen, ∀ x ∈ collectStarts N entries seen, x.1 ∉ seen := by
  intro entries
  induction entries with
  | nil => intro seen x hx; simp [collectStarts] at hx
  | cons e rest ih =>
    intro seen x hx
    rw [collectStarts] at hx
    by_cases h0 : e.2.2 = 0
    · rw [if_pos h0] at hx
      exact ih seen x hx
    · rw [if_neg h0] at hx
      by_cases hseen : clampStart N e.2.2 ∈ seen
      · rw [if_pos hseen] at hx
        exact ih seen x hx
      · rw [if_neg hseen, List.mem_cons] at hx
        rcases hx with rfl | hx
        · exact hseen
        · intro hmem
          exact ih _ x hx (List.mem_cons_of_mem _ hmem)

theorem collectStarts_nodup (N : Int) :
    ∀ entries seen, ((collectStarts N entries seen).map (·.1)).Nodup := by
  intro entries
  induction entries with
  | nil => intro seen; simp [collectStarts]
  | cons e rest ih =>
    intro seen
    rw [collectStarts]
    by_cases h0 : e.2.2 = 0
    · rw [if_pos h0]; exact ih seen
    · rw [if_neg h0]
      by_cases hseen : clampStart N e.2.2 ∈ seen
      · rw [if_pos hseen]; exact ih seen
      · rw [if_neg hseen]
        rw [List.map_cons, List.nodup_cons]
        refine ⟨?_, ih _⟩
        intro hmem
        obtain ⟨x, hx, hfst⟩ := List.mem_map.mp hmem
        have := collectStarts_notmem_seen N rest (clampStart N e.2.2 :: seen) x hx
        rw [hfst] at this
        exact this (List.mem_cons_self _ _)

theorem collectStarts_mem_clamp (N : Int) :
    ∀ entries seen, ∀ e ∈ entries, e.2.2 ≠ 0 →
      clampStart N e.2.2 ∈ seen ∨
        clampStart N e.2.2 ∈ (collectStarts N entries seen).map (·.1) := by
  intro entries
  induction entries with
  | nil => intro seen e he; simp at he
  | cons e0 rest ih =>
    intro seen e he hne
    rw [List.mem_cons] at he
    rw [collectStarts]
    rcases he with rfl | he
    · rw [if_neg hne]
      by_cases hseen : clampStart N e.2.2 ∈ seen
      · exact Or.inl hseen
      · rw [if_neg hseen]
        exact Or.inr (by rw [List.map_cons]; exact List.mem_cons_self _ _)
    · by_cases h0 : e0.2.2 = 0
      · rw [if_pos h0]
        exact ih seen e he hne
      · rw [if_neg h0]
        by_cases hseen : clampStart N e0.2.2 ∈ seen
        · rw [if_pos hseen]
          exact ih seen e he hne
        · rw [if_neg hseen]
          rcases ih (clampStart N e0.2.2 :: seen) e he hne with hin | hin
          · rw [List.mem_cons] at hin
            rcases hin with heq | hin
            · exact Or.inr (by rw [List.map_cons, heq]; exact List.mem_cons_self _ _)
            · exact Or.inl hin
          · exact Or.inr (by rw [List.map_cons]; exact List.mem_cons_of_mem _ hin)

theorem toc_starts_sorted_chain (doc : Document) :
    List.Chain' (fun a b : Int × List Char => a.1 < b.1) (toc_starts_sorted doc) := by
  have hsorted : List.Sorted keyLE (toc_starts_sorted doc) :=
    List.sorted_insertionSort keyLE (toc_starts doc)
  have hperm : List.Perm (toc_starts_sorted doc) (toc_starts doc) :=
    List.perm_insertionSort keyLE (toc_starts doc)
  have hnodup : ((toc_starts_sorted doc).map (·.1)).Nodup :=
    ((collectStarts_nodup doc.N (toc_entries doc) []).perm (hperm.map _).symm)
  have hpne : List.Pairwise (fun a b : Int × List Char => a.1 ≠ b.1)
      (toc_starts_sorted doc) := List.pairwise_map.mp hnodup
  have hplt : List.Pairwise (fun a b : Int × List Char => a.1 < b.1)
      (toc_starts_sorted doc) := by
    have := hsorted.and hpne
    exact this.imp fun h => lt_of_le_of_ne h.1 h.2
  exact hplt.chain'

theorem toc_starts_sorted_bounds (doc : Document) :
    ∀ x ∈ toc_starts_sorted doc, 0 ≤ x.1 ∧ x.1 ≤ max 0 (doc.N - 1) := by
  intro x hx
  have hperm : List.Perm (toc_starts_sorted doc) (toc_starts doc) :=
    List.perm_insertionSort keyLE (toc_starts doc)
  exact collectStarts_bounds doc.N (toc_entries doc) [] x (hperm.mem_iff.mp hx)

theorem tocCollapse_subset :
    ∀ (cs : List Chapter) (last : Int), ∀ c ∈ tocCollapse last cs, c ∈ cs := by
  intro cs
  induction cs with
  | nil => intro last c hc; simp [tocCollapse] at hc
  | cons a t ih =>
    intro last c hc
    rw [tocCollapse] at hc
    by_cases h : 1 ≤ a.start_page - last
    · rw [if_pos h, List.mem_cons] at hc
      rcases hc with rfl | hc
      · exact List.mem_cons_self _ _
      · exact List.mem_cons_of_mem _ (ih _ c hc)
    · rw [if_neg h] at hc
      exact List.mem_cons_of_mem _ (ih _ c hc)

theorem tocCollapse_eq_self :
    ∀ (cs : List Chapter) (last : Int),
      List.Chain' (fun a b => a.start_page < b.start_page) cs →
      (∀ c0, cs.head? = some c0 → last + 1 ≤ c0.start_page) →
      tocCollapse last cs = cs := by
  intro cs
  induction cs with
  | nil => intro last _ _; rfl
  | cons a t ih =>
    intro last hch hhead
    have ha : last + 1 ≤ a.start_page := hhead a rfl
    rw [tocCollapse, if_pos (by omega)]
    congr 1
    refine ih a.start_page hch.tail ?_
    intro c0 hc0
    cases t with
    | nil => simp at hc0
    | cons b t2 =>
      cases hc0
      have : a.start_page < c0.start_page := (List.chain'_cons.mp hch).1
      omega

/-! Lemmas about the scanning detector pipeline. -/

theorem dedupHits_subset :
    ∀ (l : List (Int × List Char × List Char)) (last : Int),
      ∀ x ∈ dedupHits last l, x ∈ l := by
  intro l
  induction l with
  | nil => intro last x hx; simp [dedupHits] at hx
  | cons h rest ih =>
    intro last x hx
    rw [dedupHits] at hx
    by_cases hc : 2 ≤ h.1 - last
    · rw [if_pos hc, List.mem_cons] at hx
      rcases hx with rfl | hx
      · exact List.mem_cons_self _ _
      · exact List.mem_cons_of_mem _ (ih _ x hx)
    · rw [if_neg hc] at hx
      exact List.mem_cons_of_mem _ (ih _ x hx)

theorem dedupHits_ge :
    ∀ (l : List (Int × List Char × List Char)) (last : Int),
      ∀ x ∈ dedupHits last l, last + 2 ≤ x.1 := by
  intro l
  induction l with
  | nil => intro last x hx; simp [dedupHits] at hx
  | cons h rest ih =>
    intro last x hx
    rw [dedupHits] at hx
    by_cases hc : 2 ≤ h.1 - last
    · rw [if_pos hc, List.mem_cons] at hx
      rcases hx with rfl | hx
      · omega
      · have := ih _ x hx
        omega
    · rw [if_neg hc] at hx
      exact ih _ x hx

theorem dedupHits_chain :
    ∀ (l : List (Int × List Char × List Char)) (last : Int),
      List.Chain' (fun a b => a.1 < b.1) (dedupHits last l) := by
  intro l
  induction l with
  | nil => intro last; simp [dedupHits]
  | cons h rest ih =>
    intro last
    rw [dedupHits]
    by_cases hc : 2 ≤ h.1 - last
    · rw [if_pos hc, List.chain'_cons']
      refine ⟨?_, ih _⟩
      intro y hy
      have hmem : y ∈ dedupHits h.1 rest := List.mem_of_mem_head? hy
      have := dedupHits_ge rest h.1 y hmem
      omega
    · rw [if_neg hc]
      exact ih _

theorem scanHits_bounds (doc : Document) :
    ∀ x ∈ scanHits doc, 0 ≤ x.1 ∧ x.1 ≤ doc.N - 1 := by
  intro x hx
  unfold scanHits at hx
  obtain ⟨i, hi, hmap⟩ := List.mem_filterMap.mp hx
  have hilt : i < doc.pageCount := List.mem_range.mp hi
  cases hfind : find_chapter_heading_on_page (doc.pageText i) with
  | none => rw [hfind] at hmap; simp at hmap
  | some r =>
    rw [hfind] at hmap
    simp only [Option.map_some'] at hmap
    cases hmap
    constructor
    · exact Int.natCast_nonneg i
    · show (i : Int) ≤ doc.N - 1
      unfold Document.N
      omega

/-! Assembled facts about the outline detector. -/

theorem toc_triples_chain (doc : Document) :
    List.Chain' (fun a b => a.1 < b.1)
      ((toc_starts_sorted doc).map fun s => (s.1, "TOC".data, s.2)) := by
  exact (List.chain'_map _).mpr (toc_starts_sorted_chain doc)

theorem toc_triples_bounds (doc : Document) (hNi : (1 : Int) ≤ doc.N) :
    ∀ x ∈ ((toc_starts_sorted doc).map fun s => (s.1, "TOC".data, s.2)),
      x.1 ≤ doc.N - 1 := by
  intro x hx
  obtain ⟨s, hs, rfl⟩ := List.mem_map.mp hx
  have hb := toc_starts_sorted_bounds doc s hs
  show s.1 ≤ doc.N - 1
  omega

theorem toc_triples_nonneg (doc : Document) :
    ∀ x ∈ ((toc_starts_sorted doc).map fun s => (s.1, "TOC".data, s.2)),
      0 ≤ x.1 := by
  intro x hx
  obtain ⟨s, hs, rfl⟩ := List.mem_map.mp hx
  exact (toc_starts_sorted_bounds doc s hs).1

theorem tocRaw_collapse_eq (doc : Document) :
    tocCollapse (-9999) (toc_raw_chapters doc) = toc_raw_chapters doc := by
  apply tocCollapse_eq_self
  · exact buildChapters_chain_start _ _ (toc_triples_chain doc)
  · intro c0 hc0
    have hc0mem : c0 ∈ toc_raw_chapters doc := List.mem_of_mem_head? hc0
    obtain ⟨x, hx, _, hstart⟩ := buildChapters_mem_entry _ _ c0 hc0mem
    have := toc_triples_nonneg doc x hx
    omega

/-- C1: on every document (with at least one page) where a detector
returns a non-empty chapter list, the chapters are strictly ascending by
start page, mutually non-overlapping and gap-free, with
`chapters[i].end_page + 1 = chapters[i+1].start_page`, the final chapter
ending at `pageCount - 1`, every chapter satisfying
`start_page ≤ end_page`, and the union of the ranges covering exactly
the interval from the first detected start to the last page. -/
theorem toc_scan_detector_invariants (doc : Document) (hN : 1 ≤ doc.pageCount) :
    (chapters_from_toc doc ≠ [] → chapterInvariants doc.N (chapters_from_toc doc)) ∧
    (chapters_by_scanning doc ≠ [] → chapterInvariants doc.N (chapters_by_scanning doc)) := by
  have hNi : (1 : Int) ≤ doc.N := by
    unfold Document.N; exact_mod_cast hN
  constructor
  · intro hne
    unfold chapters_from_toc at hne ⊢
    by_cases h1 : doc.toc = []
    · rw [if_pos h1] at hne; exact absurd rfl hne
    · rw [if_neg h1] at hne ⊢
      by_cases h2 : toc_starts_sorted doc = []
      · rw [if_pos h2] at hne; exact absurd rfl hne
      · rw [if_neg h2, tocRaw_collapse_eq doc]
        unfold toc_raw_chapters
        exact buildChapters_invariants doc.N _ (toc_triples_chain doc)
          (toc_triples_bounds doc hNi)
  · intro hne
    unfold chapters_by_scanning at hne ⊢
    by_cases h1 : scanHits doc = []
    · rw [if_pos h1] at hne; exact absurd rfl hne
    · rw [if_neg h1]
      refine buildChapters_invariants doc.N _ (dedupHits_chain _ _) ?_
      intro x hx
      exact (scanHits_bounds doc x (dedupHits_subset _ _ x hx)).2

/-- Witness for C1 at the example document `doc20`, where the outline
detector returns a non-empty list. -/
theorem toc_scan_detector_invariants_witness :
    chapters_from_toc doc20 ≠ [] ∧
    (chapters_from_toc doc20 ≠ [] → chapterInvariants doc20.N (chapters_from_toc doc20)) ∧
    (chapters_by_scanning doc20 ≠ [] → chapterInvariants doc20.N (chapters_by_scanning doc20)) :=
  ⟨by decide, (toc_scan_detector_invariants doc20 (by decide)).1,
    (toc_scan_detector_invariants doc20 (by decide)).2⟩

/-- C2: the resolver is a strict two-tier fallback: whenever the outline
detector yields a non-empty list it is returned unmodified; only when it
is empty is the scan detector's result returned (hence the empty list
when both are empty), with no merging. -/
theorem detect_chapters_two_tier (doc : Document) :
    (chapters_from_toc doc ≠ [] ∧ detect_chapters doc = chapters_from_toc doc) ∨
    (chapters_from_toc doc = [] ∧ detect_chapters doc = chapters_by_scanning doc) := by
  unfold detect_chapters
  by_cases h : chapters_from_toc doc = []
  · right
    exact ⟨h, by rw [if_pos h]⟩
  · left
    exact ⟨h, by rw [if_neg h]⟩

/-- C10: the final collapse pass of the outline detector never removes a
chapter: the start pages are deduplicated and sorted strictly ascending
before chapters are built, so the filtered list always equals the
unfiltered list, for every outline input. -/
theorem toc_collapse_removes_nothing (doc : Document) :
    tocCollapse (-9999) (toc_raw_chapters doc) = toc_raw_chapters doc :=
  tocRaw_collapse_eq doc

/-- C4: on a 20-page document whose outline is
`(1, "Chapter One", 1)` and `(1, "Chapter Two", 10)`, the outline
detector returns exactly two chapters with page ranges 0-8 and 9-19. -/
theorem toc_example_two_chapters :
    (chapters_from_toc doc20).map (fun c => (c.start_page, c.end_page)) =
      [((0 : Int), (8 : Int)), (9, 19)] := by
  decide

/-- Counterexample to C5: in `docPageZero` the single outline entry
`(1, "Chapter X", 0)` survives the chapter-hint filtering, yet it
contributes no candidate start page at all — the start list is empty and
so is the detector output — because the code skips entries whose
one-based page number is falsy (zero) before any clamping. -/
theorem toc_zero_page_entry_skipped_cex :
    toc_entries docPageZero = [(1, "Chapter X".data, 0)] ∧
    toc_starts docPageZero = [] ∧
    chapters_from_toc docPageZero = [] := by
  decide

/-- C5 as amended: every surviving outline entry whose one-based page
number is non-zero contributes a candidate start page, clamped into
`[0, pageCount - 1]` (subject only to same-start-page deduplication);
entries whose page number is exactly 0 are skipped. -/
theorem toc_nonzero_page_clamped (doc : Document) (hN : 1 ≤ doc.pageCount) :
    ∀ e ∈ toc_entries doc, e.2.2 ≠ 0 →
      clampStart doc.N e.2.2 ∈ (toc_starts doc).map (·.1) ∧
      0 ≤ clampStart doc.N e.2.2 ∧ clampStart doc.N e.2.2 ≤ doc.N - 1 := by
  have hNi : (1 : Int) ≤ doc.N := by
    unfold Document.N; exact_mod_cast hN
  intro e he hne
  refine ⟨?_, ?_, ?_⟩
  · rcases collectStarts_mem_clamp doc.N (toc_entries doc) [] e he hne with h | h
    · simp at h
    · exact h
  · unfold clampStart; omega
  · unfold clampStart; omega

/-- Witness for C5 (amended) at `doc20` and its first outline entry. -/
theorem toc_nonzero_page_clamped_witness :
    clampStart doc20.N 1 ∈ (toc_starts doc20).map (·.1) ∧
    0 ≤ clampStart doc20.N 1 ∧ clampStart doc20.N 1 ≤ doc20.N - 1 :=
  toc_nonzero_page_clamped doc20 (by decide) (1, "Chapter One".data, 1)
    (by decide) (by decide)

/-- Counterexample to C6: the outline detector labels its chapters with
the sentinel string `"TOC"`, not `"derived-from-outline"`; at `doc20`
both produced chapters carry the label `"TOC"`. -/
theorem toc_label_not_derived_cex :
    (chapters_from_toc doc20).map Chapter.label = ["TOC".data, "TOC".data] ∧
    "TOC".data ≠ "derived-from-outline".data := by
  decide

/-- C6 as amended: every chapter produced by the outline detector carries
the sentinel label `"TOC"`. -/
theorem toc_label_is_sentinel (doc : Document) :
    ∀ c ∈ chapters_from_toc doc, c.label = "TOC".data := by
  intro c hc
  unfold chapters_from_toc at hc
  by_cases h1 : doc.toc = []
  · rw [if_pos h1] at hc; simp at hc
  · rw [if_neg h1] at hc
    by_cases h2 : toc_starts_sorted doc = []
    · rw [if_pos h2] at hc; simp at hc
    · rw [if_neg h2] at hc
      have hraw : c ∈ toc_raw_chapters doc := tocCollapse_subset _ _ c hc
      obtain ⟨x, hx, hlab, _⟩ := buildChapters_mem_entry _ _ c hraw
      obtain ⟨s, _, rfl⟩ := List.mem_map.mp hx
      exact hlab

/-- Witness for C6 (amended) at `doc20` and its first chapter. -/
theorem toc_label_is_sentinel_witness :
    (Chapter.mk "TOC".data "Chapter One".data 0 8).label = "TOC".data :=
  toc_label_is_sentinel doc20 (Chapter.mk "TOC".data "Chapter One".data 0 8)
    (by decide)

theorem dedupHits_eq_keepFrom :
    ∀ (l : List (Int × List Char × List Char)) (last : Int),
      dedupHits last l = keepFromSpec last l := by
  intro l
  induction l with
  | nil => intro last; rfl
  | cons h rest ih =>
    intro last
    rw [dedupHits, keepFromSpec]
    by_cases hc : 2 ≤ h.1 - last
    · rw [if_pos hc, if_pos (by omega), ih]
    · rw [if_neg hc, if_neg (by omega), ih]

/-- C3: the scan deduplication keeps a match exactly when its page index
is at least 2 beyond the previously kept match, the first match being
always kept (for lists of genuine page indices, which are non-negative);
and on any document whose heading matches sit exactly on pages 0 and 1,
only page 0 is kept and the result is one chapter covering the whole
document. -/
theorem scan_dedup_keeps_iff :
    (∀ hits : List (Int × List Char × List Char), (∀ x ∈ hits, 0 ≤ x.1) →
      dedupHits (-9999) hits = scanKeepSpec hits) ∧
    (∀ (doc : Document) (l0 t0 l1 t1 : List Char),
      scanHits doc = [(0, l0, t0), (1, l1, t1)] →
      chapters_by_scanning doc = [Chapter.mk l0 t0 0 (doc.N - 1)]) := by
  constructor
  · intro hits hpos
    cases hits with
    | nil => rfl
    | cons h rest =>
      rw [dedupHits, scanKeepSpec]
      have h0 : 0 ≤ h.1 := hpos h (List.mem_cons_self _ _)
      rw [if_pos (by omega), dedupHits_eq_keepFrom]
  · intro doc l0 t0 l1 t1 hscan
    have hmem : ((1 : Int), l1, t1) ∈ scanHits doc := by
      rw [hscan]
      exact List.mem_cons_of_mem _ (List.mem_cons_self _ _)
    have hN2 : 2 ≤ doc.N := by
      have := (scanHits_bounds doc _ hmem).2
      omega
    unfold chapters_by_scanning
    rw [hscan, if_neg (by simp)]
    have hd : dedupHits (-9999) [((0 : Int), l0, t0), (1, l1, t1)] =
        [((0 : Int), l0, t0)] := by
      rw [dedupHits, if_pos (by norm_num), dedupHits, if_neg (by norm_num)]
      rfl
    rw [hd, buildChapters]
    have hmax : max (0 : Int) (doc.N - 1) = doc.N - 1 := by omega
    rw [hmax]

/-- Witness for C3: the deduplication characterization on the concrete
hit list of `docScanW`, and the resulting single whole-document chapter. -/
theorem scan_dedup_keeps_iff_witness :
    dedupHits (-9999) [((0 : Int), "1".data, ([] : List Char)), (1, "1".data, [])] =
      scanKeepSpec [((0 : Int), "1".data, []), (1, "1".data, [])] ∧
    chapters_by_scanning docScanW = [Chapter.mk "1".data [] 0 (docScanW.N - 1)] :=
  ⟨scan_dedup_keeps_iff.1 _ (by decide),
    scan_dedup_keeps_iff.2 docScanW "1".data [] "1".data [] (by decide)⟩

/-- C7: on any page whose first non-empty line is
`"Chapter 3: The Return"`, the heading matcher returns label `"3"` and
title `"The Return"` (captured title with the leading colon separator
stripped and whitespace normalized). -/
theorem heading_example_chapter3 (text : List Char)
    (h : (headingLines text).head? = some "Chapter 3: The Return".data) :
    find_chapter_heading_on_page text = some ("3".data, "The Return".data) := by
  unfold find_chapter_heading_on_page
  cases hl : headingLines text with
  | nil => rw [hl] at h; simp at h
  | cons l ls =>
    rw [hl] at h
    have hleq : l = "Chapter 3: The Return".data := by
      have : some l = some "Chapter 3: The Return".data := h
      injection this
    subst hleq
    have htake : (("Chapter 3: The Return".data :: ls).take 25) =
        "Chapter 3: The Return".data :: ls.take 24 := rfl
    have ht : tryHeadingLine "Chapter 3: The Return".data =
        some ("3".data, "The Return".data) := by decide
    rw [htake, List.findSome?_cons, ht]

/-- Witness for C7 at the one-line page text itself. -/
theorem heading_example_chapter3_witness :
    find_chapter_heading_on_page "Chapter 3: The Return".data =
      some ("3".data, "The Return".data) :=
  heading_example_chapter3 _ (by decide)

/-! Lemmas about the chunker. -/

theorem foldl_append_eq_bind (f : List Char → List (List Char)) :
    ∀ (l : List (List Char)) (acc : List (List Char)),
      l.foldl (fun a x => a ++ f x) acc = acc ++ l.flatMap f := by
  intro l
  induction l with
  | nil => intro acc; simp
  | cons x xs ih =>
    intro acc
    rw [List.foldl_cons, ih, List.flatMap_cons, List.append_assoc]

theorem chunk_text_eq_bind_paras (text : List Char) (maxc : Nat) :
    chunk_text_for_speaking text maxc = (paragraphsOf text).flatMap (chunkPara maxc) := by
  unfold chunk_text_for_speaking
  rw [foldl_append_eq_bind (chunkPara maxc) (paragraphsOf text) [], List.nil_append]

theorem packStep_inv (maxc : Nat) (P : List Char → Prop)
    (acc : List (List Char) × List Char) (s : List Char)
    (h1 : ∀ c ∈ acc.1, c.length ≤ maxc ∨ P c)
    (h2 : acc.2 = [] ∨ acc.2.length ≤ maxc ∨ P acc.2)
    (hs : P (pyStrip s)) :
    (∀ c ∈ (packStep maxc acc s).1, c.length ≤ maxc ∨ P c) ∧
    ((packStep maxc acc s).2 = [] ∨ (packStep maxc acc s).2.length ≤ maxc ∨
      P (packStep maxc acc s).2) := by
  unfold packStep
  split_ifs with hemp hfit hbuf
  · exact ⟨h1, h2⟩
  · refine ⟨h1, Or.inr (Or.inl ?_)⟩
    have hl := pyStrip_length_le (acc.2 ++ ' ' :: pyStrip s)
    rw [List.length_append, List.length_cons] at hl
    show (pyStrip (acc.2 ++ ' ' :: pyStrip s)).length ≤ maxc
    omega
  · exact ⟨h1, Or.inr (Or.inr hs)⟩
  · refine ⟨?_, Or.inr (Or.inr hs)⟩
    intro c hc
    rw [List.mem_append, List.mem_singleton] at hc
    rcases hc with hc | rfl
    · exact h1 c hc
    · rcases h2 with h2 | h2
      · exact absurd h2 hbuf
      · exact h2

theorem packFold_inv (maxc : Nat) (P : List Char → Prop) :
    ∀ (parts : List (List Char)) (acc : List (List Char) × List Char),
      (∀ c ∈ acc.1, c.length ≤ maxc ∨ P c) →
      (acc.2 = [] ∨ acc.2.length ≤ maxc ∨ P acc.2) →
      (∀ s ∈ parts, P (pyStrip s)) →
      (∀ c ∈ (parts.foldl (packStep maxc) acc).1, c.length ≤ maxc ∨ P c) ∧
      ((parts.foldl (packStep maxc) acc).2 = [] ∨
        (parts.foldl (packStep maxc) acc).2.length ≤ maxc ∨
        P (parts.foldl (packStep maxc) acc).2) := by
  intro parts
  induction parts with
  | nil => intro acc h1 h2 _; exact ⟨h1, h2⟩
  | cons s rest ih =>
    intro acc h1 h2 hp
    rw [List.foldl_cons]
    have hstep := packStep_inv maxc P acc s h1 h2 (hp s (List.mem_cons_self _ _))
    exact ih (packStep maxc acc s) hstep.1 hstep.2
      (fun x hx => hp x (List.mem_cons_of_mem _ hx))

theorem packParts_mem (maxc : Nat) (P : List Char → Prop)
    (parts : List (List Char)) (hp : ∀ s ∈ parts, P (pyStrip s)) :
    ∀ c ∈ packParts maxc parts, c.length ≤ maxc ∨ P c := by
  have hfold := packFold_inv maxc P parts ([], []) (by simp) (Or.inl rfl) hp
  intro c hc
  simp only [packParts] at hc
  by_cases hbuf : (parts.foldl (packStep maxc) ([], [])).2 = []
  · rw [if_pos hbuf] at hc
    exact hfold.1 c hc
  · rw [if_neg hbuf, List.mem_append, List.mem_singleton] at hc
    rcases hc with hc | rfl
    · exact hfold.1 c hc
    · rcases hfold.2 with h | h
      · exact absurd h hbuf
      · exact h

/-- C8: the chunker emits per-paragraph chunks; a paragraph whose
normalized length is exactly the limit is emitted as exactly one chunk; a
single sentence longer than the limit (no internal sentence boundary) is
emitted as exactly one oversized chunk; and every chunk longer than the
limit is a whole (stripped) sentence part of some paragraph — the chunker
never splits mid-sentence. -/
theorem chunker_boundary :
    (∀ (text : List Char) (maxc : Nat),
      chunk_text_for_speaking text maxc = (paragraphsOf text).flatMap (chunkPara maxc)) ∧
    (∀ (p : List Char) (maxc : Nat), (normalize_whitespace p).length = maxc →
      chunkPara maxc p = [normalize_whitespace p]) ∧
    (∀ (p : List Char) (maxc : Nat), maxc < (normalize_whitespace p).length →
      sentenceSplitPy (normalize_whitespace p) = [normalize_whitespace p] →
      chunkPara maxc p = [normalize_whitespace p]) ∧
    (∀ (text : List Char) (maxc : Nat) (c : List Char),
      c ∈ chunk_text_for_speaking text maxc → maxc < c.length →
      ∃ p ∈ paragraphsOf text, ∃ s ∈ sentenceSplitPy (normalize_whitespace p),
        c = pyStrip s) := by
  refine ⟨chunk_text_eq_bind_paras, ?_, ?_, ?_⟩
  · intro p maxc h
    unfold chunkPara
    rw [if_pos (le_of_eq h)]
  · intro p maxc hbig hsent
    have hne : normalize_whitespace p ≠ [] := by
      intro h
      rw [h] at hbig
      simp at hbig
    unfold chunkPara
    rw [if_neg (by omega), hsent]
    simp only [packParts, List.foldl_cons, List.foldl_nil, packStep, pyStrip_normalize]
    rw [if_neg hne]
    have hnofit : ¬(([] : List Char).length + (normalize_whitespace p).length + 1 ≤ maxc) := by
      simp only [List.length_nil]
      omega
    rw [if_neg hnofit]
    simp [hne]
  · intro text maxc c hc hlen
    rw [chunk_text_eq_bind_paras] at hc
    obtain ⟨p, hp, hcp⟩ := List.mem_flatMap.mp hc
    refine ⟨p, hp, ?_⟩
    unfold chunkPara at hcp
    by_cases hsmall : (normalize_whitespace p).length ≤ maxc
    · rw [if_pos hsmall, List.mem_singleton] at hcp
      subst hcp
      omega
    · rw [if_neg hsmall] at hcp
      have := packParts_mem maxc
        (fun c => ∃ s ∈ sentenceSplitPy (normalize_whitespace p), c = pyStrip s)
        (sentenceSplitPy (normalize_whitespace p))
        (fun s hs => ⟨s, hs, rfl⟩) c hcp
      rcases this with h | h
      · omega
      · exact h

/-- Witness for C8 at concrete texts: a paragraph of exactly the limit
length, an unsplittable over-limit sentence, and an oversized chunk
traced back to its sentence. -/
theorem chunker_boundary_witness :
    chunk_text_for_speaking "aaaaa".data 5 = (paragraphsOf "aaaaa".data).flatMap (chunkPara 5) ∧
    chunkPara 5 "aaaaa".data = ["aaaaa".data] ∧
    chunkPara 3 "aaaaa".data = ["aaaaa".data] ∧
    (∃ p ∈ paragraphsOf "aaaaa".data, ∃ s ∈ sentenceSplitPy (normalize_whitespace p),
      "aaaaa".data = pyStrip s) :=
  ⟨chunker_boundary.1 "aaaaa".data 5,
    chunker_boundary.2.1 "aaaaa".data 5 (by decide),
    chunker_boundary.2.2.1 "aaaaa".data 3 (by decide) (by decide),
    chunker_boundary.2.2.2 "aaaaa".data 3 "aaaaa".data (by decide) (by decide)⟩

/-- C9: after the `g` command, a numeric input whose zero-based value
lies within `[start_page, end_page]` moves the session to that page; any
non-numeric or out-of-range input leaves the page unchanged and reports
an error; in particular at page 4 of range `[4, 9]` the input `7` moves
to page 6, and at page 6 the input `99` stays at page 6 reporting
out-of-range. -/
theorem narrate_goto :
    (∀ (sp ep p : Int) (gRaw : List Char), pyIsDigit (pyStrip gRaw) = true →
      sp ≤ (digitsToNat (pyStrip gRaw) : Int) - 1 →
      (digitsToNat (pyStrip gRaw) : Int) - 1 ≤ ep →
      narrate_step sp ep p "g".data gRaw =
        ⟨some ((digitsToNat (pyStrip gRaw) : Int) - 1), none⟩) ∧
    (∀ (sp ep p : Int) (gRaw : List Char),
      ¬(pyIsDigit (pyStrip gRaw) = true ∧
        sp ≤ (digitsToNat (pyStrip gRaw) : Int) - 1 ∧
        (digitsToNat (pyStrip gRaw) : Int) - 1 ≤ ep) →
      (narrate_step sp ep p "g".data gRaw).page = some p ∧
      (narrate_step sp ep p "g".data gRaw).msg ≠ none) ∧
    narrate_step 4 9 4 "g".data "7".data = ⟨some 6, none⟩ ∧
    narrate_step 4 9 6 "g".data "99".data = ⟨some 6, some .outOfRange⟩ := by
  have hcmd : ((pyStrip "g".data).map Char.toLower) = ['g'] := by decide
  refine ⟨?_, ?_, by decide, by decide⟩
  · intro sp ep p gRaw hdig hlo hhi
    unfold narrate_step
    rw [hcmd]
    rw [if_neg (by decide), if_neg (by decide), if_neg (by decide), if_pos rfl,
      if_pos hdig, if_pos ⟨hlo, hhi⟩]
  · intro sp ep p gRaw hnot
    unfold narrate_step
    rw [hcmd]
    rw [if_neg (by decide), if_neg (by decide), if_neg (by decide), if_pos rfl]
    by_cases hdig : pyIsDigit (pyStrip gRaw) = true
    · have hrange : ¬(sp ≤ (digitsToNat (pyStrip gRaw) : Int) - 1 ∧
          (digitsToNat (pyStrip gRaw) : Int) - 1 ≤ ep) := by
        intro hr
        exact hnot ⟨hdig, hr.1, hr.2⟩
      rw [if_pos hdig, if_neg hrange]
      exact ⟨rfl, by simp⟩
    · rw [if_neg hdig]
      exact ⟨rfl, by simp⟩

/-- Witness for C9 at range `[4, 9]` with inputs `7` (in range, from
page 4) and `99` (out of range, from page 6). -/
theorem narrate_goto_witness :
    narrate_step 4 9 4 "g".data "7".data =
      ⟨some ((digitsToNat (pyStrip "7".data) : Int) - 1), none⟩ ∧
    ((narrate_step 4 9 6 "g".data "99".data).page = some 6 ∧
      (narrate_step 4 9 6 "g".data "99".data).msg ≠ none) :=
  ⟨narrate_goto.1 4 9 4 "7".data (by decide) (by decide) (by decide),
    narrate_goto.2.1 4 9 6 "99".data (by decide)⟩

end PdfNarrator
